import Mathlib

/-!
A shallow embedding of `scripts/process.py` (the EPUB → static-site pipeline of
the `economist` repository) together with theorems settling the specification
claims about it.

Modelling conventions:
* Python strings are `String` (a list of unicode code points, as in Python 3);
  character-level predicates (`\w`, `\s`, `str.lower`, `str.isupper`) are
  modelled for the ASCII range, which is the range all claims and
  counterexamples exercise.
* BeautifulSoup accessors are modelled by taking a parsed document as input
  data: a document is given by the projections the program actually reads
  (`body.get_text("\n", strip=True)`, the first `h1` and its following
  siblings, the raw file content).
* The regular expressions of the source are implemented as executable
  matchers specialised to the concrete patterns of the source, including the
  unescaped-dot wildcards of the image-path patterns and the backtracking
  behaviour around `\s*` / `[^\n]+`.
* Filesystem state (`output/articles/*.html` written so far) is threaded
  explicitly as the list `used` of slugs already written in this run; the
  output directory is recreated empty at the start of `main`, so a run
  starts from `[]`.
-/

set_option maxRecDepth 16384

namespace Economist

/-! ### Python string primitives (ASCII scope) -/

/-- Python's `\s` / `str.strip` whitespace class (ASCII): space, tab,
newline, carriage return, vertical tab, form feed. -/
def isPyWs (c : Char) : Bool :=
  c == ' ' || c == '\t' || c == '\n' || c == '\r' || c == '\x0b' || c == '\x0c'

/-- Python `str.strip()` on a character list. -/
def pyStripList (l : List Char) : List Char :=
  ((l.dropWhile isPyWs).reverse.dropWhile isPyWs).reverse

/-- Python `str.strip()`. -/
def strip (s : String) : String := ⟨pyStripList s.data⟩

/-- Python's substring test `needle in hay`. -/
def containsSub (hay needle : String) : Bool :=
  hay.data.tails.any (needle.data.isPrefixOf ·)

/-- Python's regex class `\w` (letters, digits, underscore; ASCII scope). -/
def isWordChar (c : Char) : Bool := c.isAlphanum || c == '_'

/-- Python `str.lower()` (ASCII scope). -/
def toLowerStr (s : String) : String := ⟨s.data.map Char.toLower⟩

/-- Python `str.split(sep)` for a nonempty separator: split at each
non-overlapping occurrence, left to right, keeping empty pieces.  Fuel
(`s.length` suffices: every step consumes at least one character). -/
def pySplitGo (sep : List Char) : Nat → List Char → List Char → List (List Char)
  | 0, acc, s => [acc.reverse ++ s]
  | fuel + 1, acc, s =>
    match s with
    | [] => [acc.reverse]
    | c :: cs =>
      if sep.isPrefixOf (c :: cs) then
        acc.reverse :: pySplitGo sep fuel [] ((c :: cs).drop sep.length)
      else
        pySplitGo sep fuel (c :: acc) cs

/-- Python `s.split(sep)`. -/
def pySplit (s sep : String) : List String :=
  (pySplitGo sep.data s.data.length [] s.data).map (⟨·⟩)

/-- Collapse every maximal run of characters satisfying `p` into the single
character `rep`; the `Bool` argument records whether we are inside a run.
This is `re.sub(p+, rep, ·)` for a character class `p`. -/
def collapseRunsAux (p : Char → Bool) (rep : Char) : Bool → List Char → List Char
  | _, [] => []
  | inRun, c :: cs =>
    if p c then
      if inRun then collapseRunsAux p rep true cs
      else rep :: collapseRunsAux p rep true cs
    else c :: collapseRunsAux p rep false cs

/-- `re.sub(r'\s+', ' ', s)`. -/
def collapseWs (s : String) : String := ⟨collapseRunsAux isPyWs ' ' false s.data⟩

/-- `re.sub(r'-+', '-', s)`. -/
def collapseHyphens (s : String) : String := ⟨collapseRunsAux (· == '-') '-' false s.data⟩

/-! ### Injectivity of `Nat.repr`

`create_article` disambiguates slug collisions with the decimal rendering of a
counter (`f"{base_slug}-{counter}"`).  Distinctness of those candidates, and
hence termination of the collision loop inside the available fuel, rests on
injectivity of the decimal rendering, proved here via a decoding function. -/

/-- Decimal digits of `n`, most significant first, defined structurally. -/
def dig10 (n : Nat) : List Char :=
  if _h : n < 10 then [Nat.digitChar n]
  else dig10 (n / 10) ++ [Nat.digitChar (n % 10)]
  decreasing_by exact Nat.div_lt_self (by omega) (by omega)

theorem dig10_eq_of_lt {n : Nat} (h : n < 10) : dig10 n = [Nat.digitChar n] := by
  rw [dig10]; simp [h]

theorem dig10_eq_of_ge {n : Nat} (h : ¬ n < 10) :
    dig10 n = dig10 (n / 10) ++ [Nat.digitChar (n % 10)] := by
  rw [dig10]; simp [h]

theorem toDigitsCore_eq_dig10 :
    ∀ (fuel n : Nat) (ds : List Char), n < fuel →
      Nat.toDigitsCore 10 fuel n ds = dig10 n ++ ds := by
  intro fuel
  induction fuel with
  | zero => intro n ds h; omega
  | succ f ih =>
    intro n ds h
    show Nat.toDigitsCore 10 (f + 1) n ds = dig10 n ++ ds
    rw [Nat.toDigitsCore]
    by_cases h10 : n < 10
    · have hdiv : n / 10 = 0 := Nat.div_eq_of_lt h10
      have hmod : n % 10 = n := Nat.mod_eq_of_lt h10
      simp [hdiv, hmod, dig10_eq_of_lt h10]
    · have hdiv : ¬ n / 10 = 0 := by
        intro hc
        exact h10 ((Nat.div_eq_zero_iff (by omega)).mp hc)
      have hlt : n / 10 < f := by
        have h1 : n / 10 < n := Nat.div_lt_self (by omega) (by omega)
        omega
      simp only [hdiv, if_false]
      rw [ih (n / 10) (Nat.digitChar (n % 10) :: ds) hlt, dig10_eq_of_ge h10]
      simp

theorem toDigits_eq_dig10 (n : Nat) : Nat.toDigits 10 n = dig10 n := by
  have := toDigitsCore_eq_dig10 (n + 1) n [] (by omega)
  simpa [Nat.toDigits] using this

/-- Decode a digit character back to its value. -/
def digVal (c : Char) : Nat := c.toNat - 48

/-- Decode a most-significant-first digit list with accumulator. -/
def dec10 (acc : Nat) : List Char → Nat
  | [] => acc
  | c :: cs => dec10 (acc * 10 + digVal c) cs

theorem digVal_digitChar {d : Nat} (h : d < 10) : digVal (Nat.digitChar d) = d := by
  interval_cases d <;> rfl

theorem dec10_append (acc : Nat) (l₁ l₂ : List Char) :
    dec10 acc (l₁ ++ l₂) = dec10 (dec10 acc l₁) l₂ := by
  induction l₁ generalizing acc with
  | nil => rfl
  | cons c cs ih =>
    show dec10 (acc * 10 + digVal c) (cs ++ l₂) = dec10 (dec10 (acc * 10 + digVal c) cs) l₂
    exact ih _

theorem dec10_dig10 (n : Nat) : dec10 0 (dig10 n) = n := by
  induction n using Nat.strong_induction_on with
  | _ n ih =>
    by_cases h : n < 10
    · rw [dig10_eq_of_lt h]
      show 0 * 10 + digVal (Nat.digitChar n) = n
      rw [digVal_digitChar h]; omega
    · rw [dig10_eq_of_ge h, dec10_append]
      have hdivlt : n / 10 < n := Nat.div_lt_self (by omega) (by omega)
      rw [ih (n / 10) hdivlt]
      show (n / 10) * 10 + digVal (Nat.digitChar (n % 10)) = n
      rw [digVal_digitChar (Nat.mod_lt n (by omega))]
      omega

theorem natRepr_injective : Function.Injective Nat.repr := by
  intro m n h
  have hdata : (Nat.toDigits 10 m) = (Nat.toDigits 10 n) := by
    have := congrArg String.data h
    simpa [Nat.repr, List.asString] using this
  rw [toDigits_eq_dig10, toDigits_eq_dig10] at hdata
  have := congrArg (dec10 0) hdata
  rwa [dec10_dig10, dec10_dig10] at this

/-! ### Slug derivation and collision resolution (`create_article`, lines 321–330) -/

/-- `re.sub(r'[^\w\s-]', '', s)`: keep word characters, whitespace, hyphens. -/
def stripNonWord (s : String) : String :=
  ⟨s.data.filter (fun c => isWordChar c || isPyWs c || c == '-')⟩

/-- Python `str.replace(' ', '-')`. -/
def spacesToHyphens (s : String) : String :=
  ⟨s.data.map (fun c => if c == ' ' then '-' else c)⟩

/-- Python slice `s[:n]`. -/
def pyTake (s : String) (n : Nat) : String := ⟨s.data.take n⟩

/-- Lines 321–323:
`slug = re.sub(r'[^\w\s-]', '', title).strip().replace(' ', '-').lower()[:50]`
then `slug = re.sub(r'-+', '-', slug)`. -/
def slug_of (title : String) : String :=
  collapseHyphens (pyTake (toLowerStr (spacesToHyphens (strip (stripNonWord title)))) 50)

/-- The collision candidate `f"{base_slug}-{counter}"`. -/
def slugCand (base : String) (counter : Nat) : String :=
  base ++ "-" ++ Nat.repr counter

theorem slugCand_injective (base : String) : Function.Injective (slugCand base) := by
  intro a b h
  apply natRepr_injective
  apply String.ext
  have hdata := congrArg String.data h
  simp only [slugCand, String.data_append] at hdata
  exact List.append_cancel_left hdata

/-- The `while os.path.exists(...)` loop of lines 326–330, with explicit fuel.
`used` is the set of slugs already written in this run (the files present in
`output/articles/`); the fuel `used.length + 1` is enough for the loop to
terminate on a fresh candidate (`uniquify_not_mem`). -/
def uniquifyGo (used : List String) (base : String) : Nat → Nat → String → String
  | 0, _, slug => slug
  | fuel + 1, counter, slug =>
    if slug ∈ used then uniquifyGo used base fuel (counter + 1) (slugCand base counter)
    else slug

def uniquify (used : List String) (base : String) : String :=
  uniquifyGo used base (used.length + 1) 1 base

theorem exists_fresh (used : List String) (f : Nat → String)
    (hf : Function.Injective f) :
    ∃ k, k < used.length + 1 ∧ f k ∉ used := by
  by_contra hc
  push_neg at hc
  have hmap : ∀ k ∈ Finset.range (used.length + 1), f k ∈ used.toFinset := by
    intro k hk
    rw [List.mem_toFinset]
    exact hc k (Finset.mem_range.mp hk)
  have hcard := Finset.card_le_card_of_injOn f hmap (fun a _ b _ h => hf h)
  rw [Finset.card_range] at hcard
  have hlen := used.toFinset_card_le
  omega

theorem uniquifyGo_not_mem (used : List String) (base : String) :
    ∀ (fuel counter : Nat) (slug : String),
      (slug ∉ used ∨ ∃ j, counter ≤ j ∧ j < counter + fuel ∧ slugCand base j ∉ used) →
      uniquifyGo used base fuel counter slug ∉ used := by
  intro fuel
  induction fuel with
  | zero =>
    intro counter slug h
    rcases h with h | ⟨j, hj1, hj2, _⟩
    · exact h
    · omega
  | succ f ih =>
    intro counter slug h
    show (if slug ∈ used then uniquifyGo used base f (counter + 1) (slugCand base counter)
          else slug) ∉ used
    by_cases hmem : slug ∈ used
    · rw [if_pos hmem]
      have h2 : ∃ j, counter ≤ j ∧ j < counter + (f + 1) ∧ slugCand base j ∉ used := by
        rcases h with h | h
        · exact absurd hmem h
        · exact h
      apply ih
      rcases h2 with ⟨j, hj1, hj2, hj3⟩
      by_cases hje : j = counter
      · left; rw [← hje]; exact hj3
      · right; exact ⟨j, by omega, by omega, hj3⟩
    · rw [if_neg hmem]; exact hmem

/-- The slug returned by the collision loop does not collide with any slug
already written in this run. -/
theorem uniquify_not_mem (used : List String) (base : String) :
    uniquify used base ∉ used := by
  apply uniquifyGo_not_mem
  by_cases hb : base ∈ used
  · right
    obtain ⟨k, hk, hfresh⟩ :=
      exists_fresh used (fun k => slugCand base (k + 1))
        (fun a b h => by
          have := slugCand_injective base h
          omega)
    exact ⟨k + 1, by omega, by omega, hfresh⟩
  · left; exact hb

/-! ### Specialised regex matchers

Executable implementations of the concrete regular expressions of the source,
over `List Char`, with the backtracking behaviour of the Python `re` engine
on these specific patterns. -/

/-- Month-name alternation, in source order (line 191 / 223 / 257 / 265). -/
def monthNames : List String :=
  ["January", "February", "March", "April", "May", "June", "July",
   "August", "September", "October", "November", "December"]

/-- Match one of `alts` literally as a prefix; return the rest on success.
No alternative is a prefix of another, so order only mirrors the engine. -/
def matchAlts (alts : List String) (s : List Char) : Option (List Char) :=
  match alts with
  | [] => none
  | a :: rest =>
    if a.data.isPrefixOf s then some (s.drop a.data.length) else matchAlts rest s

/-- `\s+`: at least one whitespace character, greedy (maximal munch is exact
here because every continuation starts with a non-whitespace character). -/
def wsPlus : List Char → Option (List Char)
  | [] => none
  | c :: cs => if isPyWs c then some (cs.dropWhile isPyWs) else none

/-- `\d{1,2}`: the list of rests after consuming two digits or one digit, in
the greedy order the engine backtracks through. -/
def digits12 : List Char → List (List Char)
  | c1 :: c2 :: rest =>
    if c1.isDigit && c2.isDigit then [rest, c2 :: rest]
    else if c1.isDigit then [c2 :: rest] else []
  | [c1] => if c1.isDigit then [[]] else []
  | [] => []

/-- `(st|nd|rd|th)?`: rests after the optional ordinal suffix, greedy order. -/
def ordSuffixRests (s : List Char) : List (List Char) :=
  (["st", "nd", "rd", "th"].filterMap
    (fun a => if a.data.isPrefixOf s then some (s.drop 2) else none)) ++ [s]

/-- Match
`(January|…|December)\s+\d{1,2}(st|nd|rd|th)?\s+202[56]` at the head
(the date pattern of line 257). -/
def dateFullAt (s : List Char) : Bool :=
  match matchAlts monthNames s with
  | none => false
  | some r1 =>
    match wsPlus r1 with
    | none => false
    | some r2 =>
      (digits12 r2).any (fun r3 =>
        (ordSuffixRests r3).any (fun r4 =>
          match wsPlus r4 with
          | none => false
          | some r5 =>
            match r5 with
            | '2' :: '0' :: '2' :: c :: _ => c == '5' || c == '6'
            | _ => false))

/-- `re.search` of the full date pattern (line 257). -/
def searchDateFull (s : String) : Bool := s.data.tails.any dateFullAt

/-- Match `(January|…|December)\s+\d{1,2}` at the head (line 223). -/
def monthDayAt (s : List Char) : Bool :=
  match matchAlts monthNames s with
  | none => false
  | some r1 =>
    match wsPlus r1 with
    | none => false
    | some r2 =>
      match r2 with
      | c :: _ => c.isDigit
      | [] => false

/-- `re.search` of the month-day pattern (line 223). -/
def searchMonthDay (s : String) : Bool := s.data.tails.any monthDayAt

/-- `\s+` then a month name, as a Boolean. -/
def wsThenMonth (s : List Char) : Bool :=
  match wsPlus s with
  | none => false
  | some r => (matchAlts monthNames r).isSome

/-- `re.match(r'^\d{1,2}\s+(January|…|December)', s)` as a Boolean
(lines 265 and 315). -/
def matchLeadingDayMonth (s : String) : Bool :=
  match s.data with
  | [] => false
  | c1 :: rest =>
    c1.isDigit &&
      ((match rest with
        | c2 :: rest2 => c2.isDigit && wsThenMonth rest2
        | [] => false) ||
       wsThenMonth rest)

/-- Literal prefix of the zlibrary pattern of line 285, up to `https?`. -/
def zlibLit : List Char := "This article was downloaded by zlibrary from http".data

/-- Match `This article was downloaded by zlibrary from https?://\S+` at the
head; return the rest after the match. -/
def matchZlibAt (s : List Char) : Option (List Char) :=
  if zlibLit.isPrefixOf s then
    let r1 := s.drop zlibLit.length
    let tryTail := fun (r : List Char) =>
      if "://".data.isPrefixOf r then
        let r2 := r.drop 3
        let body := r2.takeWhile (fun c => !isPyWs c)
        if body.isEmpty then none else some (r2.drop body.length)
      else none
    match r1 with
    | 's' :: r1' =>
      match tryTail r1' with
      | some r => some r
      | none => tryTail r1
    | _ => tryTail r1
  else none

/-- `re.sub` of the zlibrary pattern with the empty replacement, with fuel
(each step consumes at least one character, so `s.length` fuel suffices). -/
def subZlibGo : Nat → List Char → List Char
  | 0, s => s
  | fuel + 1, s =>
    match s with
    | [] => []
    | c :: cs =>
      match matchZlibAt (c :: cs) with
      | some rest => subZlibGo fuel rest
      | none => c :: subZlibGo fuel cs

/-- Line 285: `re.sub(r'This article was downloaded by zlibrary from https?://\S+', '', content)`. -/
def removeZlib (s : String) : String := ⟨subZlibGo s.data.length s.data⟩

/-! ### Image-path rewriting (`create_article`, lines 340–342) -/

/-- Token of the image-path patterns: a literal character, the unescaped-dot
wildcard (any character except newline), or the class `["']`. -/
inductive PTok where
  | lit : Char → PTok
  | anyc : PTok
  | quot : PTok

def matchPTok : PTok → Char → Bool
  | .lit c, d => c == d
  | .anyc, d => d != '\n'
  | .quot, d => d == '"' || d == '\''

def matchPat : List PTok → List Char → Option (List Char)
  | [], s => some s
  | _ :: _, [] => none
  | t :: ts, c :: cs => if matchPTok t c then matchPat ts cs else none

/-- The pattern `src=["\']<mid>` where each `.` of `mid` is the unescaped-dot
wildcard (the source does not escape the dots of `../`). -/
def imgPat (mid : String) : List PTok :=
  [.lit 's', .lit 'r', .lit 'c', .lit '=', .quot] ++
    mid.data.map (fun c => if c == '.' then PTok.anyc else PTok.lit c)

/-- The replacement `src="/images/` of lines 340–342. -/
def imgRepl : List Char := "src=\"/images/".data

def subPatGo (pat : List PTok) (repl : List Char) : Nat → List Char → List Char
  | 0, s => s
  | fuel + 1, s =>
    match s with
    | [] => []
    | c :: cs =>
      match matchPat pat (c :: cs) with
      | some rest => repl ++ subPatGo pat repl fuel rest
      | none => c :: subPatGo pat repl fuel cs

def subPat (pat : List PTok) (repl : List Char) (s : List Char) : List Char :=
  subPatGo pat repl s.length s

/-- Lines 340–342: the three sequential `re.sub` passes over the content. -/
def fixImgPaths (s : String) : String :=
  let p1 := subPat (imgPat "static_images/") imgRepl s.data
  let p2 := subPat (imgPat "../static_images/") imgRepl p1
  let p3 := subPat (imgPat "../../static_images/") imgRepl p2
  ⟨p3⟩

/-! ### `create_article` (lines 306–418) -/

/-- The article record returned by `create_article` (line 412).  The Python
dict stores `title`, `slug`, `path`, `section` (here `sect`: `section` is a
Lean keyword) and a wall-clock date; `body` additionally records the
processed content written into the article page, which the dict does not
carry but the page file does. -/
structure Article where
  title : String
  slug : String
  path : String
  sect : String
  body : String
deriving Repr, DecidableEq

/-- Line 310: `title = re.sub(r'\s+', ' ', title).strip()`. -/
def normalizeTitle (t : String) : String := strip (collapseWs t)

/-- Lines 311–312: truncate a title longer than 150 characters to its first
147 characters plus `"..."`. -/
def truncateTitle (t : String) : String :=
  if 150 < t.length then pyTake t 147 ++ "..." else t

/-- Lines 315–319: prefix a title that starts with a day-and-month pattern
with the section name, or with `"Article"` when the section is empty. -/
def datePrefixTitle (t sect : String) : String :=
  if matchLeadingDayMonth t then
    if sect ≠ "" then sect ++ " - " ++ t else "Article - " ++ t
  else t

/-- Lines 334–337: wrap plain-text paragraphs in `<p>` tags. -/
def wrapParagraphs (content : String) : String :=
  String.intercalate "\n"
    ((((pySplit content "\n\n").map strip).filter (· ≠ "")).map
      (fun p => "<p>" ++ p ++ "</p>"))

/-- `content.strip().startswith('<')` (line 334). -/
def stripStartsWithLt (s : String) : Bool :=
  match (strip s).data with
  | '<' :: _ => true
  | _ => false

/-- Lines 334–342: paragraph wrapping for plain text, then image-path fixes. -/
def processContent (content : String) : String :=
  fixImgPaths (if !stripStartsWithLt content then wrapParagraphs content else content)

/-- Lines 306–418.  `used` is the list of slugs whose article files already
exist in `output/articles/`; the returned list appends the slug written by
this call.  The `date` argument only flows into the page markup, not the
returned record (the dict's `date` field is the wall clock). -/
def create_article (title date sect content : String) (used : List String) :
    Article × List String :=
  let title := datePrefixTitle (truncateTitle (normalizeTitle title)) sect
  let slug := uniquify used (slug_of title)
  let path := "articles/" ++ slug ++ ".html"
  let body := processContent content
  ({ title := title, slug := slug, path := path, sect := sect, body := body },
   slug :: used)

/-! ### `parse_article_text` (lines 238–290) -/

/-- The mutable loop state of lines 247–249. -/
structure ScanSt where
  title : String
  date : String
  contentStart : Nat
deriving Repr, DecidableEq

/-- `s[0].isupper()` on a nonempty string. -/
def firstCharUpper (s : String) : Bool :=
  match s.data with
  | c :: _ => c.isUpper
  | [] => false

/-- One iteration of the loop of lines 251–268. -/
def scanLine (subtitle : String) (st : ScanSt) (iline : Nat × String) : ScanSt :=
  let i := iline.1
  let line := iline.2
  if line = subtitle ∨ containsSub line subtitle then st
  else if searchDateFull line then
    { st with date := line, contentStart := i + 1 }
  else if st.title = "" ∧ 10 < line.length ∧ line.length < 200 ∧ firstCharUpper line then
    if matchLeadingDayMonth line then st
    else { st with title := line, contentStart := i + 1 }
  else st

/-- Lines 240–285: the candidate (title, date, content) of one
section-pattern segment, before the minimum-content check of line 287.
`none` when the segment has no usable lines or no title. -/
def parse_article_candidate (text subtitle : String) :
    Option (String × String × String) :=
  let lines := ((pySplit text "\n").map strip).filter (· ≠ "")
  if lines = [] then none
  else
    let st := lines.enum.foldl (scanLine subtitle) ⟨"", "", 0⟩
    let title := if st.title = "" then subtitle else st.title
    if title = "" ∨ title = st.date then none
    else
      some (title, st.date,
        removeZlib (String.intercalate "\n\n" (lines.drop st.contentStart)))

/-- Lines 287–290: the minimum-content check (`if len(content) < 100:
return None`) and the final `create_article` call, applied to an optional
candidate. -/
def parse_article_finish (sectName : String)
    (tdc? : Option (String × String × String)) (used : List String) :
    Option Article × List String :=
  match tdc? with
  | none => (none, used)
  | some tdc =>
    if tdc.2.2.length < 100 then (none, used)
    else
      let au := create_article tdc.1 tdc.2.1 sectName tdc.2.2 used
      (some au.1, au.2)

/-- Lines 238–290: parse one section-pattern segment into at most one
article.  Returns the optional article and the updated written-slug list. -/
def parse_article_text (text sectName subtitle : String) (used : List String) :
    Option Article × List String :=
  parse_article_finish sectName (parse_article_candidate text subtitle) used

/-! ### The section pattern of line 191 and its `finditer` -/

/-- The alternation of section names (line 191), in source order.  No
alternative is a prefix of another, also case-insensitively, so the engine's
alternation order does not affect which alternative matches. -/
def sectionAlts : List String :=
  ["The world this week", "Leaders", "Letters", "By Invitation", "Briefing",
   "United States", "The Americas", "Asia", "China", "Middle East & Africa",
   "Europe", "Britain", "International", "Business", "Finance & economics",
   "Science & technology", "Culture", "Economic & financial indicators",
   "Obituary"]

/-- Case-insensitive list equality (`re.IGNORECASE`, ASCII scope). -/
def lowerEq (a b : List Char) : Bool := a.map Char.toLower == b.map Char.toLower

/-- Case-insensitively match one of `alts` as a prefix; return the matched
text (in its original case, as the group captures it) and the rest. -/
def matchAltsCI (alts : List String) (s : List Char) :
    Option (List Char × List Char) :=
  match alts with
  | [] => none
  | a :: rest =>
    let n := a.data.length
    let pre := s.take n
    if pre.length == n && lowerEq pre a.data then some (pre, s.drop n)
    else matchAltsCI rest s

/-- Match `\s*\|\s*([^\n]+)` at the head, with the engine's backtracking:
the second `\s*` is greedy but backtracks to leave at least one non-newline
character for the group when the whitespace run reaches the end of input.
Returns (group 2, rest after the whole match). -/
def matchPipeSubtitle (s : List Char) : Option (List Char × List Char) :=
  match s.dropWhile isPyWs with
  | '|' :: s2 =>
    let s3 := s2.dropWhile isPyWs
    if s3.isEmpty then
      match s2.reverse.dropWhile (· == '\n') with
      | x :: _ => some ([x], (s2.reverse.takeWhile (· == '\n')).reverse)
      | [] => none
    else
      let g2 := s3.takeWhile (· != '\n')
      some (g2, s3.drop g2.length)
  | _ => none

/-- Match the whole section pattern at the head; returns
(group 1, group 2, rest after the match). -/
def matchSectionAt (s : List Char) :
    Option (List Char × List Char × List Char) :=
  match matchAltsCI sectionAlts s with
  | none => none
  | some (g1, r1) =>
    match matchPipeSubtitle r1 with
    | none => none
    | some (g2, rest) => some (g1, g2, rest)

/-- `re.finditer` scan with fuel (each step consumes at least one character).
Returns the text before the first match together with the matches, each
carrying the text from its end to the start of the next match (the segment
`full_text[match.end():next.start()]` that lines 201–204 slice). -/
def finditerGo : Nat → List Char → List Char × List (List Char × List Char × List Char)
  | 0, s => (s, [])
  | fuel + 1, s =>
    match s with
    | [] => ([], [])
    | c :: cs =>
      match matchSectionAt (c :: cs) with
      | some (g1, g2, rest) =>
        let gm := finditerGo fuel rest
        ([], (g1, g2, gm.1) :: gm.2)
      | none =>
        let gm := finditerGo fuel cs
        (c :: gm.1, gm.2)

/-- Line 193: the list of section-pattern matches over the whole text. -/
def finditerSections (s : String) : List (List Char × List Char × List Char) :=
  (finditerGo s.data.length s.data).2

/-! ### `parse_html_file` (lines 167–236) -/

/-- A sibling element of the first `h1`, as BeautifulSoup's accessors see
it: its tag name (`sibling.name`), stripped text (`get_text(strip=True)`),
and serialisation (`str(sibling)`). -/
structure Sibling where
  name : String
  text : String
  raw : String
deriving Repr, DecidableEq

/-- A content document as the program reads it: the raw file content (for the
Economist-marker check of line 53), whether `soup.find('body')` succeeds,
`body.get_text('\n', strip=True)` after script/style removal (line 185), and
the first `h1` with its following siblings in document order. -/
structure HtmlDoc where
  raw : String
  hasBody : Bool
  fullText : String
  h1 : Option (String × List Sibling)
deriving Repr, DecidableEq

/-- Lines 220–225: the first of the `h2`/`h3`/`p` siblings whose stripped
text contains a month-day pattern, or the empty string. -/
def findSiblingDate (sibs : List Sibling) : String :=
  match (sibs.filter (fun sb => sb.name == "h2" || sb.name == "h3" || sb.name == "p")).find?
      (fun sb => searchMonthDay sb.text) with
  | some sb => sb.text
  | none => ""

/-- Lines 292–304 (`get_content_html`): serialisations of the siblings up to
the next `h1`, joined by newlines. -/
def get_content_html (sibs : List Sibling) : String :=
  String.intercalate "\n" ((sibs.takeWhile (fun sb => sb.name != "h1")).map (·.raw))

/-- Lines 212–234: the HTML-structure branch, taken when the section
pattern matched nowhere.  The article title is the first `h1`'s stripped
text; the date is the first dated `h2`/`h3`/`p` sibling; the content is the
sibling markup up to the next `h1`, emitted only when longer than 200
characters, with an empty section. -/
def parse_h1_branch (h1 : Option (String × List Sibling)) (used : List String) :
    List Article × List String :=
  match h1 with
  | none => ([], used)
  | some ts =>
    if 200 < (get_content_html ts.2).length then
      let au := create_article ts.1 (findSiblingDate ts.2) "" (get_content_html ts.2) used
      ([au.1], au.2)
    else ([], used)

/-- Lines 167–236.  The unused Python parameters `filepath` and
`sections_order` are omitted.  Returns the articles of this document and the
updated written-slug list. -/
def parse_html_file (doc : HtmlDoc) (used : List String) :
    List Article × List String :=
  if !doc.hasBody then ([], used)
  else
    if finditerSections doc.fullText ≠ [] then
      (finditerSections doc.fullText).foldl (fun acc m =>
        let sectName := strip ⟨m.1⟩
        let subtitle := strip ⟨m.2.1⟩
        let seg : String := ⟨m.2.2⟩
        match parse_article_text seg sectName subtitle acc.2 with
        | (some a, u) => (acc.1 ++ [a], u)
        | (none, u) => (acc.1, u)) ([], used)
    else
      parse_h1_branch doc.h1 used

/-! ### The main loop (lines 44–84) -/

/-- A spine entry: its resolved path and its parsed document. -/
structure DocFile where
  path : String
  doc : HtmlDoc
deriving Repr, DecidableEq

/-- Line 53: `'The Economist' in content or 'economist.com' in content`. -/
def economistMarked (content : String) : Bool :=
  containsSub content "The Economist" || containsSub content "economist.com"

/-- Lines 44–61: iterate the spine files, skipping already-processed paths
and documents without the Economist marker; thread the written-slug list. -/
def mainLoop : List DocFile → List String → List String → List Article × List String
  | [], _, used => ([], used)
  | d :: ds, processed, used =>
    if d.path ∈ processed then mainLoop ds processed used
    else if !economistMarked d.doc.raw then mainLoop ds processed used
    else
      let au := parse_html_file d.doc used
      let rest := mainLoop ds (d.path :: processed) au.2
      (au.1 ++ rest.1, rest.2)

/-- The full collection pass of one run; the output directory starts empty
(lines 16–22), so the written-slug list starts at `[]`. -/
def collectArticles (docs : List DocFile) : List Article × List String :=
  mainLoop docs [] []

/-- Lines 69–75: de-duplicate the article list by slug, keeping first
occurrences. -/
def dedupBySlug : List Article → List String → List Article
  | [], _ => []
  | a :: rest, seen =>
    if a.slug ∈ seen then dedupBySlug rest seen
    else a :: dedupBySlug rest (a.slug :: seen)

/-! ### `generate_index` grouping (lines 420–533) -/

/-- Append an article to its section's group in the insertion-ordered dict
`by_section` (lines 430–434). -/
def addToGroup : List (String × List Article) → String → Article →
    List (String × List Article)
  | [], s, a => [(s, [a])]
  | (k, g) :: rest, s, a =>
    if k = s then (k, g ++ [a]) :: rest else (k, g) :: addToGroup rest s a

/-- Lines 430–434: group the article list by section, keys in first-seen
order, each group in discovery order. -/
def by_section (arts : List Article) : List (String × List Article) :=
  arts.foldl (fun acc a => addToGroup acc a.sect a) []

/-- Line 443: `sec.lower() in key.lower() or key.lower() in sec.lower()`. -/
def fuzzyMatch (sec key : String) : Bool :=
  containsSub (toLowerStr key) (toLowerStr sec) ||
    containsSub (toLowerStr sec) (toLowerStr key)

/-- Lines 437–452: section keys fuzzily matching `sections_order` first (in
that order), then the remaining keys in first-seen order, no duplicates. -/
def orderedSections (sectionsOrder keys : List String) : List String :=
  let first := sectionsOrder.foldl (fun acc sec =>
    keys.foldl (fun acc2 key =>
      if fuzzyMatch sec key ∧ key ∉ acc2 then acc2 ++ [key] else acc2) acc) []
  keys.foldl (fun acc key => if key ∉ acc then acc ++ [key] else acc) first

/-- Line 530: `if sec in by_section and by_section[sec]` — keep the group
only when the key is present with a nonempty article list. -/
def groupFor (sec : String) : Option (List Article) → Option (String × List Article)
  | some g => if g ≠ [] then some (sec, g) else none
  | none => none

/-- Lines 529–533: the rendered groups of the index page, in order: one
`section-title` header per entry, with that section's articles under it. -/
def generate_index_groups (arts : List Article) (sectionsOrder : List String) :
    List (String × List Article) :=
  (orderedSections sectionsOrder ((by_section arts).map Prod.fst)).filterMap
    (fun sec => groupFor sec (List.lookup sec (by_section arts)))

/-- The run outcome modelled for the claims: the exit code, the emitted
unique articles, the index groups when generated, and whether the RSS feed
was generated. -/
structure RunResult where
  exitCode : Nat
  articles : List Article
  indexGroups : Option (List (String × List Article))
  rssGenerated : Bool
deriving Repr, DecidableEq

/-- Lines 63–84: after collection, exit with code 1 when no article was
found (generating neither index nor feed); otherwise de-duplicate and
generate the site. -/
def mainRun (docs : List DocFile) (sectionsOrder : List String) : RunResult :=
  let allArts := (collectArticles docs).1
  if allArts = [] then
    { exitCode := 1, articles := [], indexGroups := none, rssGenerated := false }
  else
    let uniq := dedupBySlug allArts []
    { exitCode := 0, articles := uniq,
      indexGroups := some (generate_index_groups uniq sectionsOrder),
      rssGenerated := true }

/-! ### `get_spine_order` (lines 125–165) -/

/-- A file of the extraction tree as `os.walk` yields it: the directory it
lives in and its filename; its path is `dir ++ "/" ++ fname`. -/
structure TreeFile where
  dir : String
  fname : String
deriving Repr, DecidableEq

/-- The parsed `.opf` descriptor: the directory of the descriptor file, the
manifest `(id, href)` pairs in document order (lines 141–146; later
duplicate ids overwrite earlier ones, as in a Python dict), and the spine
`idref`s in order (lines 149–152). -/
structure OpfDoc where
  dir : String
  items : List (String × String)
  itemrefs : List String
deriving Repr, DecidableEq

/-- Lines 149–152: resolve each spine reference through the manifest,
silently skipping unresolvable ones.  Later duplicate manifest ids win, so
the lookup reads the reversed item list. -/
def resolveSpine (opf : OpfDoc) : List String :=
  opf.itemrefs.filterMap (fun iid =>
    match List.lookup iid opf.items.reverse with
    | some href => some (opf.dir ++ "/" ++ href)
    | none => none)

/-- Line 161: `f.endswith(('.html', '.xhtml', '.htm'))`. -/
def contentExt (fname : String) : Bool :=
  ".html".data.isSuffixOf fname.data || ".xhtml".data.isSuffixOf fname.data ||
    ".htm".data.isSuffixOf fname.data

/-- `list.sort()` on paths: lexicographic by code point. -/
def lexSort (l : List String) : List String :=
  List.insertionSort (· ≤ ·) l

/-- Lines 125–165.  `opf` is the parse outcome of the descriptor: `none`
models a missing descriptor or a read/`ET.fromstring` failure (the `except`
of line 154, which leaves `files` empty).  The fallback collects all
content-document paths of the tree and sorts them. -/
def spineFiles : Option OpfDoc → List String
  | none => []
  | some doc => resolveSpine doc

def get_spine_order (opf : Option OpfDoc) (tree : List TreeFile) : List String :=
  if spineFiles opf = [] then
    lexSort ((tree.filter (fun tf => contentExt tf.fname)).map
      (fun tf => tf.dir ++ "/" ++ tf.fname))
  else spineFiles opf

/-! ### Definitions following the spec's words, for refinement comparisons -/

/-- Slug derivation as claim C5 words it: strip all characters outside
letters/digits/whitespace/hyphen, replace each whitespace run with a single
hyphen, lowercase, truncate to 80 characters. -/
def slugSpecClaim (title : String) : String :=
  let kept := title.data.filter (fun c => c.isAlphanum || isPyWs c || c == '-')
  ⟨((collapseRunsAux isPyWs '-' false kept).map Char.toLower).take 80⟩

/-- Slug derivation as the code actually behaves, worded independently of
the code's pass structure: keep only word characters (letters, digits,
underscore), whitespace and hyphens; trim; lowercase; truncate to 50
characters; then collapse every run of spaces and hyphens into a single
hyphen (other whitespace characters survive verbatim). -/
def slugSpecAmended (title : String) : String :=
  let kept := pyStripList (title.data.filter (fun c => isWordChar c || isPyWs c || c == '-'))
  ⟨collapseRunsAux (fun c => c == ' ' || c == '-') '-' false
    ((kept.map Char.toLower).take 50)⟩

/-- Index grouping as claim C7 words it: one group header per contiguous
run of same-section articles, non-contiguous runs not merged. -/
def contiguousGroups : List Article → List (String × List Article)
  | [] => []
  | a :: rest =>
    match contiguousGroups rest with
    | [] => [(a.sect, [a])]
    | (k, g) :: gs =>
      if k = a.sect then (a.sect, a :: g) :: gs
      else (a.sect, [a]) :: (k, g) :: gs

/-! ### Lemmas about the pattern substitutions (for C6) -/

/-- No position of `s` matches `pat`. -/
def noPatMatch (pat : List PTok) (s : List Char) : Bool :=
  s.tails.all (fun t => (matchPat pat t).isNone)

theorem noPatMatch_cons {pat : List PTok} {c : Char} {s : List Char} :
    noPatMatch pat (c :: s) =
      ((matchPat pat (c :: s)).isNone && noPatMatch pat s) := by
  simp [noPatMatch, List.tails]

theorem subPatGo_no_match (pat : List PTok) (repl : List Char) :
    ∀ (fuel : Nat) (s : List Char), noPatMatch pat s = true →
      subPatGo pat repl fuel s = s := by
  intro fuel
  induction fuel with
  | zero => intro s _; rfl
  | succ f ih =>
    intro s hs
    match s with
    | [] => rfl
    | c :: cs =>
      rw [noPatMatch_cons, Bool.and_eq_true] at hs
      show (match matchPat pat (c :: cs) with
            | some rest => repl ++ subPatGo pat repl f rest
            | none => c :: subPatGo pat repl f cs) = c :: cs
      rw [Option.isNone_iff_eq_none.mp hs.1]
      rw [ih cs hs.2]

theorem subPat_no_match (pat : List PTok) (repl : List Char) (s : List Char)
    (hs : noPatMatch pat s = true) : subPat pat repl s = s :=
  subPatGo_no_match pat repl s.length s hs

theorem subPat_match_head (pat : List PTok) (repl : List Char)
    (c : Char) (cs rest : List Char)
    (hm : matchPat pat (c :: cs) = some rest)
    (hnm : noPatMatch pat rest = true) :
    subPat pat repl (c :: cs) = repl ++ rest := by
  show subPatGo pat repl (cs.length + 1) (c :: cs) = repl ++ rest
  show (match matchPat pat (c :: cs) with
        | some r => repl ++ subPatGo pat repl cs.length r
        | none => c :: subPatGo pat repl cs.length cs) = repl ++ rest
  rw [hm]
  show repl ++ subPatGo pat repl cs.length rest = repl ++ rest
  rw [subPatGo_no_match pat repl cs.length rest hnm]

/-! ### The emission invariant: slug freshness is preserved by every
emitting function -/

/-- Running a pipeline stage from written-slug list `used` produced the
articles `arts` and left the written-slug list `used'`: the new list is
exactly the emitted slugs on top of the old one, the emitted slugs are
pairwise distinct and fresh with respect to `used`, and every emitted
article's path is its slug's article path. -/
def EmitsOK (used : List String) (arts : List Article) (used' : List String) : Prop :=
  used' = (arts.map (·.slug)).reverse ++ used ∧
  (arts.map (·.slug)).Nodup ∧
  (∀ a ∈ arts, a.slug ∉ used) ∧
  (∀ a ∈ arts, a.path = "articles/" ++ a.slug ++ ".html")

theorem emitsOK_nil (used : List String) : EmitsOK used [] used := by
  refine ⟨rfl, List.nodup_nil, ?_, ?_⟩ <;> intro a ha <;> simp at ha

theorem emitsOK_create (title date sect content : String) (used : List String) :
    EmitsOK used [(create_article title date sect content used).1]
      (create_article title date sect content used).2 := by
  refine ⟨rfl, List.nodup_singleton _, ?_, ?_⟩
  · intro a ha
    rw [List.mem_singleton] at ha
    subst ha
    exact uniquify_not_mem used _
  · intro a ha
    rw [List.mem_singleton] at ha
    subst ha
    rfl

theorem EmitsOK.append {u0 u1 u2 : List String} {a1 a2 : List Article}
    (h1 : EmitsOK u0 a1 u1) (h2 : EmitsOK u1 a2 u2) :
    EmitsOK u0 (a1 ++ a2) u2 := by
  obtain ⟨he1, hn1, hf1, hp1⟩ := h1
  obtain ⟨he2, hn2, hf2, hp2⟩ := h2
  have hsub1 : ∀ a ∈ a1, a.slug ∈ u1 := by
    intro a ha
    rw [he1]
    exact List.mem_append_left _ (List.mem_reverse.mpr (List.mem_map_of_mem _ ha))
  refine ⟨?_, ?_, ?_, ?_⟩
  · rw [he2, he1, List.map_append, List.reverse_append, List.append_assoc]
  · rw [List.map_append]
    rw [List.nodup_append]
    refine ⟨hn1, hn2, ?_⟩
    intro s hs1 hs2
    obtain ⟨a, ha, rfl⟩ := List.mem_map.mp hs2
    obtain ⟨b, hb, hbs⟩ := List.mem_map.mp hs1
    exact hf2 a ha (hbs ▸ hsub1 b hb)
  · intro a ha
    rcases List.mem_append.mp ha with h | h
    · exact hf1 a h
    · intro hmem
      apply hf2 a h
      rw [he1]
      exact List.mem_append_right _ hmem
  · intro a ha
    rcases List.mem_append.mp ha with h | h
    · exact hp1 a h
    · exact hp2 a h

theorem parse_article_finish_emits (sectName : String)
    (tdc? : Option (String × String × String)) (used : List String) :
    EmitsOK used (parse_article_finish sectName tdc? used).1.toList
      (parse_article_finish sectName tdc? used).2 := by
  cases tdc? with
  | none => exact emitsOK_nil used
  | some tdc =>
    simp only [parse_article_finish]
    by_cases hlen : tdc.2.2.length < 100
    · rw [if_pos hlen]
      exact emitsOK_nil used
    · rw [if_neg hlen]
      exact emitsOK_create tdc.1 tdc.2.1 sectName tdc.2.2 used

theorem parse_article_text_emits (text sectName subtitle : String)
    (used : List String) :
    EmitsOK used (parse_article_text text sectName subtitle used).1.toList
      (parse_article_text text sectName subtitle used).2 :=
  parse_article_finish_emits sectName (parse_article_candidate text subtitle) used

theorem foldl_matches_emits (ms : List (List Char × List Char × List Char))
    (u0 : List String) :
    ∀ (acc : List Article × List String), EmitsOK u0 acc.1 acc.2 →
      EmitsOK u0
        (ms.foldl (fun acc m =>
          let sectName := strip ⟨m.1⟩
          let subtitle := strip ⟨m.2.1⟩
          let seg : String := ⟨m.2.2⟩
          match parse_article_text seg sectName subtitle acc.2 with
          | (some a, u) => (acc.1 ++ [a], u)
          | (none, u) => (acc.1, u)) acc).1
        (ms.foldl (fun acc m =>
          let sectName := strip ⟨m.1⟩
          let subtitle := strip ⟨m.2.1⟩
          let seg : String := ⟨m.2.2⟩
          match parse_article_text seg sectName subtitle acc.2 with
          | (some a, u) => (acc.1 ++ [a], u)
          | (none, u) => (acc.1, u)) acc).2 := by
  induction ms with
  | nil => intro acc h; exact h
  | cons m rest ih =>
    intro acc h
    apply ih
    have hstep := parse_article_text_emits ⟨m.2.2⟩ (strip ⟨m.1⟩) (strip ⟨m.2.1⟩) acc.2
    rcases hpat : parse_article_text ⟨m.2.2⟩ (strip ⟨m.1⟩) (strip ⟨m.2.1⟩) acc.2 with ⟨oa, u⟩
    rw [hpat] at hstep
    match oa with
    | some a =>
      simp only [List.foldl_cons, hpat]
      exact h.append hstep
    | none =>
      simp only [List.foldl_cons, hpat]
      have : (acc.1 ++ [], u) = (acc.1, u) := by simp
      simpa using h.append hstep

theorem parse_h1_branch_emits (h1 : Option (String × List Sibling))
    (used : List String) :
    EmitsOK used (parse_h1_branch h1 used).1 (parse_h1_branch h1 used).2 := by
  cases h1 with
  | none => exact emitsOK_nil used
  | some ts =>
    simp only [parse_h1_branch]
    by_cases hlen : 200 < (get_content_html ts.2).length
    · rw [if_pos hlen]
      exact emitsOK_create ts.1 (findSiblingDate ts.2) "" (get_content_html ts.2) used
    · rw [if_neg hlen]
      exact emitsOK_nil used

theorem parse_html_file_emits (doc : HtmlDoc) (used : List String) :
    EmitsOK used (parse_html_file doc used).1 (parse_html_file doc used).2 := by
  unfold parse_html_file
  cases hb : doc.hasBody with
  | false =>
    simp only [Bool.not_false, if_true]
    exact emitsOK_nil used
  | true =>
    simp only [Bool.not_true, Bool.false_eq_true, if_false]
    by_cases hms : finditerSections doc.fullText ≠ []
    · rw [if_pos hms]
      exact foldl_matches_emits _ used ([], used) (emitsOK_nil used)
    · rw [if_neg hms]
      exact parse_h1_branch_emits doc.h1 used

theorem mainLoop_emits (docs : List DocFile) :
    ∀ (processed used : List String),
      EmitsOK used (mainLoop docs processed used).1 (mainLoop docs processed used).2 := by
  induction docs with
  | nil => intro processed used; exact emitsOK_nil used
  | cons d ds ih =>
    intro processed used
    have hunfold : mainLoop (d :: ds) processed used =
        (if d.path ∈ processed then mainLoop ds processed used
         else if !economistMarked d.doc.raw then mainLoop ds processed used
         else
           ((parse_html_file d.doc used).1 ++
              (mainLoop ds (d.path :: processed) (parse_html_file d.doc used).2).1,
            (mainLoop ds (d.path :: processed) (parse_html_file d.doc used).2).2)) := rfl
    rw [hunfold]
    by_cases hp : d.path ∈ processed
    · simp only [hp, if_true]; exact ih processed used
    · simp only [hp, if_false]
      cases hm : economistMarked d.doc.raw with
      | false =>
        simp only [Bool.not_false, if_true]
        exact ih processed used
      | true =>
        simp only [Bool.not_true, Bool.false_eq_true, if_false]
        exact (parse_html_file_emits d.doc used).append
          (ih (d.path :: processed) (parse_html_file d.doc used).2)

theorem collectArticles_emits (docs : List DocFile) :
    EmitsOK [] (collectArticles docs).1 (collectArticles docs).2 :=
  mainLoop_emits docs [] []

/-! ### Character lemmas for the slug refinement -/

theorem toNat_ofNat_valid {m : Nat} (h : m.isValidChar) :
    (Char.ofNat m).toNat = m := by
  unfold Char.ofNat
  rw [dif_pos h]
  cases h with
  | inl h1 => rfl
  | inr h2 => rfl

theorem toLower_eq_space {c : Char} (h : Char.toLower c = ' ') : c = ' ' := by
  unfold Char.toLower at h
  simp only [] at h
  by_cases hc : c.toNat ≥ 65 ∧ c.toNat ≤ 90
  · rw [if_pos hc] at h
    exfalso
    have hv := congrArg Char.toNat h
    have hval : (c.toNat + 32).isValidChar := by
      left; omega
    rw [toNat_ofNat_valid hval] at hv
    rw [show (' ').toNat = 32 from rfl] at hv
    omega
  · rw [if_neg hc] at h
    exact h

theorem toLower_eq_hyphen {c : Char} (h : Char.toLower c = '-') : c = '-' := by
  unfold Char.toLower at h
  simp only [] at h
  by_cases hc : c.toNat ≥ 65 ∧ c.toNat ≤ 90
  · rw [if_pos hc] at h
    exfalso
    have hv := congrArg Char.toNat h
    have hval : (c.toNat + 32).isValidChar := by
      left; omega
    rw [toNat_ofNat_valid hval] at hv
    rw [show ('-').toNat = 45 from rfl] at hv
    omega
  · rw [if_neg hc] at h
    exact h

/-- Replacing spaces by hyphens before lowering and collapsing hyphen runs
is the same as lowering and collapsing runs of spaces-and-hyphens. -/
theorem collapse_map_lower_sp2hy (m : List Char) (b : Bool) :
    collapseRunsAux (· == '-') '-' b
        ((m.map (fun c => if c == ' ' then '-' else c)).map Char.toLower) =
      collapseRunsAux (fun c => c == ' ' || c == '-') '-' b (m.map Char.toLower) := by
  induction m generalizing b with
  | nil => rfl
  | cons c tl ih =>
    by_cases hsp : c = ' '
    · subst hsp
      cases b with
      | true => exact ih true
      | false => exact congrArg (List.cons '-') (ih true)
    · have hc2 : (if c == ' ' then '-' else c) = c := by
        simp [hsp]
      by_cases hhy : c = '-'
      · subst hhy
        cases b with
        | true => exact ih true
        | false => exact congrArg (List.cons '-') (ih true)
      · have hlsp : ¬ (Char.toLower c == ' ') = true := by
          simp only [beq_iff_eq]
          intro hx
          exact hsp (toLower_eq_space hx)
        have hlhy : ¬ (Char.toLower c == '-') = true := by
          simp only [beq_iff_eq]
          intro hx
          exact hhy (toLower_eq_hyphen hx)
        simp only [List.map_cons, hc2, collapseRunsAux]
        rw [if_neg hlhy, if_neg (by simp only [Bool.or_eq_true]; tauto)]
        exact congrArg (Char.toLower c :: ·) (ih false)

/-! ### Claim theorems -/

/-- Claim C2: within a single run, every article created by `create_article`
is assigned a slug distinct from every other article of that run, and hence
a distinct `output/articles/<slug>.html` path. -/
theorem claim_C2_unique_paths (docs : List DocFile) :
    ((collectArticles docs).1.map (·.slug)).Nodup ∧
    ((collectArticles docs).1.map (·.path)).Nodup := by
  obtain ⟨-, hnodup, -, hpath⟩ := collectArticles_emits docs
  refine ⟨hnodup, ?_⟩
  have hmap : (collectArticles docs).1.map (·.path) =
      ((collectArticles docs).1.map (·.slug)).map
        (fun s => "articles/" ++ s ++ ".html") := by
    rw [List.map_map]
    exact List.map_congr_left (fun a ha => hpath a ha)
  rw [hmap]
  refine List.Nodup.map ?_ hnodup
  intro s1 s2 h
  have hd := congrArg String.data h
  simp only [String.data_append] at hd
  rw [List.append_assoc, List.append_assoc] at hd
  exact String.ext (List.append_cancel_right (List.append_cancel_left hd))

/-- Claim C5 as stated is false: the code truncates the slug to 50
characters, not 80 (and keeps underscores, which `\w` admits).  On a
60-character title the code's slug has 50 characters while the claimed
algorithm yields 60. -/
theorem claim_C5_counterexample :
    slug_of ⟨List.replicate 60 'a'⟩ ≠ slugSpecClaim ⟨List.replicate 60 'a'⟩ ∧
    (slug_of ⟨List.replicate 60 'a'⟩).length = 50 ∧
    (slugSpecClaim ⟨List.replicate 60 'a'⟩).length = 60 := by
  refine ⟨?_, ?_, ?_⟩ <;> decide

/-- Claim C5 (amended): the slug keeps only word characters (letters,
digits, underscore), whitespace and hyphens, trims, lowercases, truncates
to 50 characters, and collapses every run of spaces and hyphens into one
hyphen. -/
theorem claim_C5_amended_slug (t : String) : slug_of t = slugSpecAmended t := by
  apply String.ext
  show collapseRunsAux (· == '-') '-' false
      ((((pyStripList (t.data.filter
            (fun c => isWordChar c || isPyWs c || c == '-'))).map
          (fun c => if c == ' ' then '-' else c)).map Char.toLower).take 50) =
    collapseRunsAux (fun c => c == ' ' || c == '-') '-' false
      (((pyStripList (t.data.filter
            (fun c => isWordChar c || isPyWs c || c == '-'))).map Char.toLower).take 50)
  simp only [← List.map_take]
  exact collapse_map_lower_sp2hy _ false

/-- Claim C8: when the collection pass yields zero articles, the run exits
with code 1 and generates neither index nor RSS feed. -/
theorem claim_C8_exit_one (docs : List DocFile) (sectionsOrder : List String)
    (h : (collectArticles docs).1 = []) :
    mainRun docs sectionsOrder =
      { exitCode := 1, articles := [], indexGroups := none,
        rssGenerated := false } := by
  unfold mainRun
  show (if (collectArticles docs).1 = [] then _ else _) = _
  rw [if_pos h]

theorem claim_C8_witness :
    mainRun [] [] = ⟨1, [], none, false⟩ :=
  claim_C8_exit_one [] [] rfl

/-- Claim C9: a document whose raw content contains neither
`"The Economist"` nor `"economist.com"` contributes nothing to the run — the
loop iteration for it is a no-op, before any parsing. -/
theorem claim_C9_skip_unmarked (d : DocFile) (ds : List DocFile)
    (processed used : List String)
    (h1 : containsSub d.doc.raw "The Economist" = false)
    (h2 : containsSub d.doc.raw "economist.com" = false) :
    mainLoop (d :: ds) processed used = mainLoop ds processed used := by
  have hmark : economistMarked d.doc.raw = false := by
    rw [economistMarked, h1, h2]; rfl
  have hunfold : mainLoop (d :: ds) processed used =
      (if d.path ∈ processed then mainLoop ds processed used
       else if !economistMarked d.doc.raw then mainLoop ds processed used
       else
         ((parse_html_file d.doc used).1 ++
            (mainLoop ds (d.path :: processed) (parse_html_file d.doc used).2).1,
          (mainLoop ds (d.path :: processed) (parse_html_file d.doc used).2).2)) := rfl
  rw [hunfold, hmark]
  by_cases hp : d.path ∈ processed
  · rw [if_pos hp]
  · rw [if_neg hp]
    rfl

/-- A document without the Economist marker, for the C9 witness. -/
def docC9 : DocFile := ⟨"x.html", ⟨"hello world", true, "", none⟩⟩

theorem claim_C9_witness :
    containsSub docC9.doc.raw "The Economist" = false ∧
    containsSub docC9.doc.raw "economist.com" = false ∧
    mainLoop [docC9] [] [] = mainLoop [] [] [] :=
  ⟨by decide, by decide,
   claim_C9_skip_unmarked docC9 [] [] [] (by decide) (by decide)⟩

/-! ### Concrete documents for the C1/C3 counterexamples -/

/-- A section-pattern segment whose candidate content has 113 characters:
above the text path's 100-character threshold, below 200. -/
def segA : String :=
  "\nGrowth slows in the east\nthe east region reports weaker output across provinces\nfactory gates report slower shipments this quarter again"

/-- A document text with one `China | …` section marker followed by the
segment `segA`. -/
def textA : String :=
  "China | Slowdown ahead\nGrowth slows in the east\nthe east region reports weaker output across provinces\nfactory gates report slower shipments this quarter again"

def xs210 : String := ⟨List.replicate 210 'x'⟩

/-- Document A: parses through the section-pattern path, emitting one
article with section `"China"`. -/
def docA3 : HtmlDoc := ⟨"The Economist", true, textA, none⟩

/-- Document B: no section-pattern match; its first classified element is a
primary heading (`h1`), whose sibling markup exceeds 200 characters. -/
def docB3 : HtmlDoc :=
  ⟨"The Economist", true, "nothing matching here",
   some ("Growth Continues Apace", [⟨"p", "", "<p>" ++ xs210 ++ "</p>"⟩])⟩

/-- The article emitted from `segA`. -/
def artA1 : Article :=
  { title := "Growth slows in the east",
    slug := "growth-slows-in-the-east",
    path := "articles/growth-slows-in-the-east.html",
    sect := "China",
    body := "<p>the east region reports weaker output across provinces</p>\n<p>factory gates report slower shipments this quarter again</p>" }

/-- The article emitted from `docB3`'s `h1` branch. -/
def artB1 : Article :=
  { title := "Growth Continues Apace",
    slug := "growth-continues-apace",
    path := "articles/growth-continues-apace.html",
    sect := "",
    body := "<p>" ++ xs210 ++ "</p>" }

def docsC3 : List DocFile := [⟨"a.html", docA3⟩, ⟨"b.html", docB3⟩]

/-- Claim C1 as stated is false: the text-parsing path emits articles whose
serialized body is shorter than 200 characters — its threshold is 100 on
the pre-markup content (line 287), not 200.  The segment `segA` yields an
emitted article with a 125-character body. -/
theorem claim_C1_counterexample :
    ((parse_article_text segA "China" "Slowdown ahead" []).1.map
        (·.body.length)) = some 125 ∧ 125 < 200 :=
  ⟨by decide, by decide⟩

/-- Claim C1 (amended): the two parsing paths use different minimum-content
thresholds.  The section-pattern text path emits an article exactly when its
candidate content has at least 100 characters (measured before paragraph
markup is added); the HTML-structure path emits exactly when the raw sibling
markup is longer than 200 characters. -/
theorem claim_C1_amended :
    (∀ (text sectName subtitle : String) (used : List String)
        (a : Article) (u : List String),
      parse_article_text text sectName subtitle used = (some a, u) →
      ∃ t d c, parse_article_candidate text subtitle = some (t, d, c) ∧
        100 ≤ c.length ∧ a = (create_article t d sectName c used).1) ∧
    (∀ (doc : HtmlDoc) (used : List String),
      finditerSections doc.fullText = [] →
      (parse_html_file doc used).1 ≠ [] →
      ∃ ts, doc.h1 = some ts ∧ 200 < (get_content_html ts.2).length) := by
  constructor
  · intro text sectName subtitle used a u h
    unfold parse_article_text at h
    rcases hc : parse_article_candidate text subtitle with - | tdc
    · rw [hc] at h
      simp [parse_article_finish] at h
    · rw [hc] at h
      simp only [parse_article_finish] at h
      by_cases hlen : tdc.2.2.length < 100
      · rw [if_pos hlen] at h
        exact absurd (congrArg Prod.fst h) (by simp)
      · rw [if_neg hlen] at h
        refine ⟨tdc.1, tdc.2.1, tdc.2.2, rfl, by omega, ?_⟩
        have h1 : some (create_article tdc.1 tdc.2.1 sectName tdc.2.2 used).1 = some a :=
          congrArg Prod.fst h
        exact (Option.some_inj.mp h1).symm
  · intro doc used hfind hne
    unfold parse_html_file at hne
    cases hb : doc.hasBody with
    | false =>
      rw [hb] at hne
      simp at hne
    | true =>
      rw [hb] at hne
      simp only [Bool.not_true, Bool.false_eq_true, if_false] at hne
      rw [if_neg (fun hcon => hcon hfind)] at hne
      cases hh1 : doc.h1 with
      | none =>
        rw [hh1] at hne
        simp [parse_h1_branch] at hne
      | some ts =>
        rw [hh1] at hne
        simp only [parse_h1_branch] at hne
        by_cases hlen : 200 < (get_content_html ts.2).length
        · exact ⟨ts, rfl, hlen⟩
        · rw [if_neg hlen] at hne
          simp at hne

theorem claim_C1_amended_witness :
    (∃ t d c, parse_article_candidate segA "Slowdown ahead" = some (t, d, c) ∧
      100 ≤ c.length ∧ artA1 = (create_article t d "China" c []).1) ∧
    (∃ ts, docB3.h1 = some ts ∧ 200 < (get_content_html ts.2).length) :=
  ⟨claim_C1_amended.1 segA "China" "Slowdown ahead" [] artA1
      ["growth-slows-in-the-east"] (by decide),
   claim_C1_amended.2 docB3 [] (by decide) (by decide)⟩

/-- No article of the `h1` branch carries a section label. -/
theorem parse_h1_branch_sect (h1 : Option (String × List Sibling))
    (used : List String) :
    ∀ a ∈ (parse_h1_branch h1 used).1, a.sect = "" := by
  cases h1 with
  | none => intro a ha; simp [parse_h1_branch] at ha
  | some ts =>
    intro a ha
    simp only [parse_h1_branch] at ha
    by_cases hlen : 200 < (get_content_html ts.2).length
    · rw [if_pos hlen] at ha
      rw [List.mem_singleton] at ha
      subst ha
      rfl
    · rw [if_neg hlen] at ha
      simp at ha

/-- Claim C3 (amended): section labels do not persist across document
boundaries — there is no cross-document section state at all.  Each document
is parsed independently, and a document with no section-pattern match
produces its articles through the HTML-structure path with an *empty*
section, whatever any earlier document contained. -/
theorem claim_C3_amended (doc : HtmlDoc) (used : List String)
    (h : finditerSections doc.fullText = []) :
    ∀ a ∈ (parse_html_file doc used).1, a.sect = "" := by
  intro a ha
  unfold parse_html_file at ha
  cases hb : doc.hasBody with
  | false =>
    rw [hb] at ha
    simp at ha
  | true =>
    rw [hb] at ha
    simp only [Bool.not_true, Bool.false_eq_true, if_false] at ha
    rw [if_neg (fun hcon => hcon h)] at ha
    exact parse_h1_branch_sect doc.h1 used a ha

theorem claim_C3_amended_witness :
    finditerSections docB3.fullText = [] ∧
    (parse_html_file docB3 []).1 = [artB1] ∧ artB1.sect = "" :=
  have h1 : (parse_html_file docB3 []).1 = [artB1] := by decide
  ⟨rfl, h1,
   claim_C3_amended docB3 [] rfl artB1 (by rw [h1]; exact List.mem_singleton.mpr rfl)⟩

/-- Claim C3 as stated is false: in a run over document A (whose last — and
only — section marker is `"China"`) followed by document B (no section
heading, first classified element a primary heading), the article produced
from B's heading has an empty section, not `"China"`. -/
theorem claim_C3_counterexample :
    ((collectArticles docsC3).1.map (·.sect)) = ["China", ""] ∧
    docB3.h1.isSome = true ∧
    finditerSections docB3.fullText = [] ∧
    ("" : String) ≠ "China" :=
  ⟨by decide, rfl, rfl, by decide⟩

/-- Claim C4: when the descriptor is missing, unparsable, or resolves to
zero paths, `get_spine_order` returns exactly the lexicographic sort of all
content-document paths of the tree: a permutation of them, sorted by the
code-point order on paths.  The embedding is a total function, matching the
fact that the fallback never raises and may return the empty list. -/
theorem claim_C4_fallback (opf : Option OpfDoc) (tree : List TreeFile)
    (h : opf = none ∨ ∃ d, opf = some d ∧ resolveSpine d = []) :
    (get_spine_order opf tree).Perm
        ((tree.filter (fun tf => contentExt tf.fname)).map
          (fun tf => tf.dir ++ "/" ++ tf.fname)) ∧
    (get_spine_order opf tree).Pairwise (· ≤ ·) := by
  have hfiles : spineFiles opf = [] := by
    rcases h with rfl | ⟨d, rfl, hd⟩
    · rfl
    · exact hd
  unfold get_spine_order
  rw [hfiles, if_pos rfl]
  exact ⟨List.perm_insertionSort _ _, List.sorted_insertionSort _ _⟩

theorem claim_C4_witness :
    (get_spine_order none [⟨"t", "b.html"⟩, ⟨"t", "a.html"⟩]).Perm
        ["t/b.html", "t/a.html"] ∧
    (get_spine_order none [⟨"t", "b.html"⟩, ⟨"t", "a.html"⟩]).Pairwise (· ≤ ·) :=
  claim_C4_fallback none [⟨"t", "b.html"⟩, ⟨"t", "a.html"⟩] (Or.inl rfl)

/-- A title of length 151 beginning with a day-and-month pattern, for the
C10 counterexample. -/
def t10 : String := "1 January " ++ ⟨List.replicate 141 'a'⟩

/-- A 160-character title not beginning with a day number, for the C10
witness. -/
def t10b : String := "T" ++ ⟨List.replicate 159 'a'⟩

/-- Claim C10 as stated is false: after normalisation and truncation, a
title that begins with a day-and-month pattern gets a section or
`"Article - "` prefix, and the emitted title can exceed 150 characters. -/
theorem claim_C10_counterexample :
    (create_article t10 "" "" "" []).1.title.length = 160 ∧ 150 < 160 :=
  ⟨by decide, by decide⟩

/-- Claim C10 (amended): the whitespace-normalised title is truncated to its
first 147 characters plus `"..."` when longer than 150, so it never exceeds
150 characters; and whenever the truncated title does not begin with a
day-and-month pattern, the emitted article title is that truncated title and
keeps length at most 150.  (When it does, lines 315–319 prepend a section or
`"Article"` prefix, which may push the emitted title past 150.) -/
theorem claim_C10_amended (t sect : String) :
    (truncateTitle (normalizeTitle t)).length ≤ 150 ∧
    (matchLeadingDayMonth (truncateTitle (normalizeTitle t)) = false →
      ∀ (d c : String) (used : List String),
        (create_article t d sect c used).1.title.length ≤ 150) ∧
    (150 < (normalizeTitle t).length →
      truncateTitle (normalizeTitle t) = pyTake (normalizeTitle t) 147 ++ "...") := by
  have hlen : ∀ s : String, (truncateTitle s).length ≤ 150 := by
    intro s
    unfold truncateTitle
    by_cases h : 150 < s.length
    · rw [if_pos h]
      show (pyTake s 147 ++ "...").length ≤ 150
      rw [String.length_append]
      have h147 : (pyTake s 147).length ≤ 147 := by
        show (s.data.take 147).length ≤ 147
        rw [List.length_take]
        omega
      have h3 : ("..." : String).length = 3 := rfl
      omega
    · rw [if_neg h]
      omega
  refine ⟨hlen _, ?_, ?_⟩
  · intro hm d c used
    show (datePrefixTitle (truncateTitle (normalizeTitle t)) sect).length ≤ 150
    unfold datePrefixTitle
    rw [hm]
    simp only [Bool.false_eq_true, if_false]
    exact hlen _
  · intro h
    unfold truncateTitle
    rw [if_pos h]

theorem claim_C10_amended_witness :
    (truncateTitle (normalizeTitle t10b)).length ≤ 150 ∧
    (create_article t10b "" "" "" []).1.title.length ≤ 150 ∧
    truncateTitle (normalizeTitle t10b) = pyTake (normalizeTitle t10b) 147 ++ "..." :=
  ⟨(claim_C10_amended t10b "").1,
   (claim_C10_amended t10b "").2.1 (by decide) "" "" [],
   (claim_C10_amended t10b "").2.2 (by decide)⟩

/-- Claim C6 as stated is false: the rewrite of lines 340–342 does not
inspect image-extension suffixes and does not discard directory prefixes —
it only replaces a literal leading `static_images/` (optionally below
wildcard-matched parent components) with `/images/`, keeping the remainder
of the path verbatim; and a `.jpg` reference outside `static_images/` is
left untouched. -/
theorem claim_C6_counterexample :
    fixImgPaths "<img src=\"static_images/pics/b.jpg\">" =
      "<img src=\"/images/pics/b.jpg\">" ∧
    fixImgPaths "<img src=\"static_images/pics/b.jpg\">" ≠
      "<img src=\"/images/b.jpg\">" ∧
    fixImgPaths "<img src=\"pics/b.jpg\">" = "<img src=\"pics/b.jpg\">" :=
  ⟨by decide, by decide, by decide⟩

/-- Claim C6 (amended): an attribute value beginning with `static_images/`
has exactly that prefix replaced by `/images/`; the rest of the value —
directory components included, extension never examined — is kept verbatim
(provided the remainder contains no further occurrence of the three
rewritten patterns, which the flat repacked layout guarantees). -/
theorem claim_C6_amended (path : String)
    (h1 : noPatMatch (imgPat "static_images/") path.data = true)
    (h2 : noPatMatch (imgPat "../static_images/") (imgRepl ++ path.data) = true)
    (h3 : noPatMatch (imgPat "../../static_images/") (imgRepl ++ path.data) = true) :
    fixImgPaths ("src=\"static_images/" ++ path) = ⟨imgRepl ++ path.data⟩ := by
  have hdata : ("src=\"static_images/" ++ path).data =
      "src=\"static_images/".data ++ path.data := String.data_append _ _
  have hp1 : subPat (imgPat "static_images/") imgRepl
      ("src=\"static_images/".data ++ path.data) = imgRepl ++ path.data :=
    subPat_match_head _ _ 's' ("rc=\"static_images/".data ++ path.data)
      path.data rfl h1
  show (⟨subPat (imgPat "../../static_images/") imgRepl
      (subPat (imgPat "../static_images/") imgRepl
        (subPat (imgPat "static_images/") imgRepl
          ("src=\"static_images/" ++ path).data))⟩ : String) = ⟨imgRepl ++ path.data⟩
  rw [hdata, hp1, subPat_no_match _ _ _ h2, subPat_no_match _ _ _ h3]

theorem claim_C6_amended_witness :
    fixImgPaths ("src=\"static_images/" ++ "a/b.jpg") =
      ⟨imgRepl ++ "a/b.jpg".data⟩ :=
  claim_C6_amended "a/b.jpg" (by decide) (by decide) (by decide)

/-! ### Lemmas about the index grouping (for C7) -/

theorem addToGroup_lookup_same (bs : List (String × List Article))
    (s : String) (a : Article) :
    List.lookup s (addToGroup bs s a) =
      some ((List.lookup s bs).getD [] ++ [a]) := by
  induction bs with
  | nil => simp [addToGroup, List.lookup]
  | cons kg rest ih =>
    obtain ⟨k, g⟩ := kg
    by_cases hk : k = s
    · subst hk
      simp [addToGroup, List.lookup]
    · have hbeq : (s == k) = false := by
        simp only [beq_eq_false_iff_ne]
        exact fun hc => hk hc.symm
      simp only [addToGroup, if_neg hk]
      simp only [List.lookup, hbeq]
      exact ih

theorem addToGroup_lookup_other (bs : List (String × List Article))
    (s key : String) (a : Article) (h : key ≠ s) :
    List.lookup key (addToGroup bs s a) = List.lookup key bs := by
  induction bs with
  | nil =>
    have hbeq : (key == s) = false := by
      simp only [beq_eq_false_iff_ne]
      exact h
    simp [addToGroup, List.lookup, hbeq]
  | cons kg rest ih =>
    obtain ⟨k, g⟩ := kg
    by_cases hk : k = s
    · subst hk
      have hbeq : (key == k) = false := by
        simp only [beq_eq_false_iff_ne]
        exact h
      simp [addToGroup, List.lookup, hbeq]
    · simp only [addToGroup, if_neg hk]
      cases hbeq : (key == k) with
      | true => simp [List.lookup, hbeq]
      | false =>
        simp only [List.lookup, hbeq]
        exact ih

theorem by_section_foldl_lookup (arts : List Article) :
    ∀ (acc : List (String × List Article)) (k : String),
      (List.lookup k (arts.foldl (fun acc a => addToGroup acc a.sect a) acc)).getD [] =
        (List.lookup k acc).getD [] ++ arts.filter (fun a => a.sect == k) := by
  induction arts with
  | nil => intro acc k; simp
  | cons a arts ih =>
    intro acc k
    show (List.lookup k
      (arts.foldl (fun acc a => addToGroup acc a.sect a) (addToGroup acc a.sect a))).getD []
      = _
    rw [ih (addToGroup acc a.sect a) k]
    by_cases hks : a.sect = k
    · subst hks
      rw [addToGroup_lookup_same]
      have hpred : (a.sect == a.sect) = true := beq_self_eq_true _
      simp only [List.filter_cons, hpred]
      simp [List.append_assoc]
    · rw [addToGroup_lookup_other _ _ _ _ (fun hc => hks hc.symm)]
      have hpred : (a.sect == k) = false := by
        simp only [beq_eq_false_iff_ne]
        exact hks
      simp [List.filter_cons, hpred]

/-- The group stored under key `k` is exactly the articles with section `k`,
in discovery order. -/
theorem by_section_lookup (arts : List Article) (k : String)
    (g : List Article) (h : List.lookup k (by_section arts) = some g) :
    g = arts.filter (fun a => a.sect == k) := by
  have := by_section_foldl_lookup arts [] k
  rw [show by_section arts = arts.foldl (fun acc a => addToGroup acc a.sect a) [] from rfl] at h
  rw [h] at this
  simpa using this

theorem foldl_guard_append_nodup (q : List String → String → Prop)
    [∀ acc k, Decidable (q acc k)]
    (hq : ∀ acc k, q acc k → k ∉ acc) :
    ∀ (keys acc : List String), acc.Nodup →
      (keys.foldl (fun acc key => if q acc key then acc ++ [key] else acc) acc).Nodup := by
  intro keys
  induction keys with
  | nil => intro acc h; exact h
  | cons k t ih =>
    intro acc h
    show (t.foldl _ (if q acc k then acc ++ [k] else acc)).Nodup
    by_cases hk : q acc k
    · rw [if_pos hk]
      refine ih _ ?_
      rw [List.nodup_append]
      exact ⟨h, List.nodup_singleton _,
        fun x hx hxk => (List.mem_singleton.mp hxk ▸ hq acc k hk) hx⟩
    · rw [if_neg hk]
      exact ih acc h

theorem fuzzy_phase_nodup (keys : List String) :
    ∀ (so : List String) (acc : List String), acc.Nodup →
      (so.foldl (fun acc sec =>
        keys.foldl (fun acc2 key =>
          if fuzzyMatch sec key ∧ key ∉ acc2 then acc2 ++ [key] else acc2) acc)
        acc).Nodup := by
  intro so
  induction so with
  | nil => intro acc h; exact h
  | cons sec rest ih =>
    intro acc h
    show (rest.foldl _ (keys.foldl _ acc)).Nodup
    exact ih _ (foldl_guard_append_nodup
      (fun acc2 key => fuzzyMatch sec key ∧ key ∉ acc2)
      (fun _ _ hh => hh.2) keys acc h)

theorem orderedSections_nodup (so keys : List String) :
    (orderedSections so keys).Nodup := by
  unfold orderedSections
  exact foldl_guard_append_nodup (fun acc key => key ∉ acc) (fun _ _ h => h)
    keys _ (fuzzy_phase_nodup keys so [] List.nodup_nil)

theorem filterMap_fst_nodup {β : Type} (f : String → Option (String × β))
    (hf : ∀ s p, f s = some p → p.1 = s) :
    ∀ l : List String, l.Nodup → ((l.filterMap f).map Prod.fst).Nodup := by
  intro l
  induction l with
  | nil => intro _; simp
  | cons s t ih =>
    intro h
    obtain ⟨hs, ht⟩ := List.nodup_cons.mp h
    rw [List.filterMap_cons]
    cases hf2 : f s with
    | none => exact ih ht
    | some p =>
      simp only [List.map_cons]
      rw [List.nodup_cons]
      refine ⟨?_, ih ht⟩
      intro hmem
      obtain ⟨q, hq, hq2⟩ := List.mem_map.mp hmem
      obtain ⟨s', hs', hfs'⟩ := List.mem_filterMap.mp hq
      apply hs
      have h1 : q.1 = s' := hf s' q hfs'
      have h2 : p.1 = s := hf s p hf2
      have hss : s' = s := by rw [← h1, hq2, h2]
      rw [← hss]
      exact hs'

theorem groupFor_fst (sec : String) (og : Option (List Article))
    (p : String × List Article) (h : groupFor sec og = some p) : p.1 = sec := by
  cases og with
  | none => simp [groupFor] at h
  | some g =>
    simp only [groupFor] at h
    by_cases hg : g ≠ []
    · rw [if_pos hg] at h
      obtain rfl := Option.some_inj.mp h
      rfl
    · rw [if_neg hg] at h
      simp at h

/-- Claim C7 (amended): the index renders one header per *distinct* section
name — non-contiguous runs of the same section are merged under a single
header — and the articles under a header are exactly that section's
articles, in discovery order. -/
theorem claim_C7_amended (arts : List Article) (so : List String) :
    ((generate_index_groups arts so).map Prod.fst).Nodup ∧
    ∀ p ∈ generate_index_groups arts so,
      p.2 = arts.filter (fun a => a.sect == p.1) := by
  constructor
  · exact filterMap_fst_nodup _ (fun s p h => groupFor_fst s _ p h) _
      (orderedSections_nodup so _)
  · intro p hp
    obtain ⟨sec, hsec, hf⟩ := List.mem_filterMap.mp hp
    cases hl : List.lookup sec (by_section arts) with
    | none => rw [hl] at hf; simp [groupFor] at hf
    | some g =>
      rw [hl] at hf
      simp only [groupFor] at hf
      by_cases hg : g ≠ []
      · rw [if_pos hg] at hf
        obtain rfl := Option.some_inj.mp hf
        show g = arts.filter (fun a => a.sect == sec)
        exact by_section_lookup arts sec g hl
      · rw [if_neg hg] at hf
        simp at hf

theorem claim_C7_amended_witness :
    ((generate_index_groups [artA1] []).map Prod.fst).Nodup ∧
    ("China", [artA1]).2 =
      [artA1].filter (fun a => a.sect == ("China", [artA1]).1) :=
  ⟨(claim_C7_amended [artA1] []).1,
   (claim_C7_amended [artA1] []).2 ("China", [artA1]) (by decide)⟩

/-- A document with three section markers in the order China, Leaders,
China: the two China articles are non-contiguous in discovery order. -/
def textC7 : String :=
  "China | Alpha beat\nPanda diplomacy returns quietly\nofficials quietly resumed loan programs across several markets last week without any public comment at all\nLeaders | Bravo note\nCentral banks on the move\nrate setters surprised investors with a sequence of unusual interventions in currency trades this week\nChina | Charlie memo\nProvincial budgets tighten\nlocal governments trimmed infrastructure outlays as land sales weakened further across the country and several provinces"

def docC7 : HtmlDoc := ⟨"The Economist", true, textC7, none⟩

/-- Claim C7 as stated is false: in a run whose articles carry sections
China, Leaders, China (non-contiguous runs of the same section), the
generated index renders the `China` header once, merging both runs under
it — not once per contiguous run as the claim predicts. -/
theorem claim_C7_counterexample :
    ((mainRun [⟨"c.html", docC7⟩] []).articles.map (·.sect)) =
      ["China", "Leaders", "China"] ∧
    ((generate_index_groups (mainRun [⟨"c.html", docC7⟩] []).articles []).map
        Prod.fst) = ["China", "Leaders"] ∧
    (mainRun [⟨"c.html", docC7⟩] []).indexGroups =
      some (generate_index_groups (mainRun [⟨"c.html", docC7⟩] []).articles []) ∧
    ((contiguousGroups (mainRun [⟨"c.html", docC7⟩] []).articles).map Prod.fst) =
      ["China", "Leaders", "China"] ∧
    generate_index_groups (mainRun [⟨"c.html", docC7⟩] []).articles [] ≠
      contiguousGroups (mainRun [⟨"c.html", docC7⟩] []).articles :=
  ⟨by decide, by decide, by decide, by decide, by decide⟩

end Economist
